import Mathlib

/-!
# Verification of the pg_etcd synchronization core

A shallow embedding of the pg_etcd repository (cybertec-postgresql/pg_etcd)
in Lean 4, together with theorems settling the specification claims.

The `etcd` PostgreSQL table is modelled as a list of rows in insertion
order, which is exactly the observable state a sequence of `INSERT`,
`INSERT ... ON CONFLICT DO UPDATE` and `UPDATE` statements produces.
Timestamps are abstracted to natural numbers supplied by the caller
(the source uses `time.Now()` / `now()` / `CURRENT_TIMESTAMP`).

Sources embedded here:
* `internal/migrations/001_create_tables.sql` (`etcd` table, `etcd_get`)
* `internal/sync/postgresql.go` (`BulkInsert`, `InsertPendingRecord`,
  `UpdateRevision`, `GetLatestRevision`, `GetPendingRecords`)
* `internal/sync/sync.go` (`initialSync`, `syncEtcdToPostgreSQL`,
  `processEtcdEvent`, `processPendingRecord`)
* `internal/sync/etcd.go` (`WatchPrefix`, `WatchWithRecovery`,
  `parseEtcdDSN`, `GetPrefix`)
* `internal/sync/retry.go` (`RetryWithBackoff`) and the `retry` package
  (`WithOperation` over sethvargo/go-retry)
-/

/-- One row of the PostgreSQL `etcd` table
(`001_create_tables.sql`): `ts`, `key`, `value` (nullable), `revision`,
`tombstone`, with primary key `(key, revision)`. -/
structure Row where
  key : String
  value : Option String
  revision : Int
  ts : Nat
  tombstone : Bool
deriving Repr, DecidableEq

/-- The `etcd` table: rows in insertion order. -/
abbrev Table := List Row

/-- The primary key `(key, revision)` of a row. -/
def Row.pk (q : Row) : String × Int := (q.key, q.revision)

/-- Whether the table holds a row with primary key `(k, rev)`. -/
def containsPK (t : Table) (k : String) (rev : Int) : Bool :=
  t.any fun q => q.key == k && q.revision == rev

/-- `INSERT ... ON CONFLICT (key, revision) DO UPDATE SET ts = EXCLUDED.ts,
value = EXCLUDED.value, tombstone = EXCLUDED.tombstone`: if a row with the
same primary key exists it is rewritten to the incoming row (key and
revision are unchanged by the update, and `ts`, `value`, `tombstone` are
taken from the incoming row, so the row becomes the incoming row);
otherwise the incoming row is appended. -/
def upsert (t : Table) (r : Row) : Table :=
  if containsPK t r.key r.revision then
    t.map fun q => if q.key == r.key && q.revision == r.revision then r else q
  else
    t ++ [r]

/-- The Go `KeyValueRecord` of `internal/sync/config.go`: `Value` is a
plain (non-nullable) string in Go code. -/
structure KeyValueRecord where
  key : String
  value : String
  revision : Int
  ts : Nat
  tombstone : Bool
deriving Repr, DecidableEq

/-- The row a record produces in `BulkInsert`
(`internal/sync/postgresql.go:67-92`): tombstone records have their value
forced to the empty string before being queued. -/
def recordRow (r : KeyValueRecord) : Row :=
  { key := r.key
    value := some (if r.tombstone then "" else r.value)
    revision := r.revision
    ts := r.ts
    tombstone := r.tombstone }

/-- `BulkInsert` (`internal/sync/postgresql.go:67-92`): queue one upsert
statement per record and run the batch in order. -/
def bulkInsert (t : Table) (records : List KeyValueRecord) : Table :=
  (records.map recordRow).foldl upsert t

/-- `InsertPendingRecord` (`internal/sync/postgresql.go:199-216`), the
implementation behind `kv_put` / `kv_delete`: insert `(key, value, -1,
tombstone)` with the value forced to `""` for tombstones, resolving a
conflict on `(key, -1)` by updating `value`, `ts` (to the current time)
and `tombstone`. -/
def insertPendingRecord (t : Table) (now : Nat) (key value : String)
    (tombstone : Bool) : Table :=
  let v := if tombstone then "" else value
  upsert t { key := key, value := some v, revision := -1, ts := now,
             tombstone := tombstone }

/-- The SQL function `etcd_get` (`001_create_tables.sql:25-34`):
`SELECT ... WHERE key = p_key ORDER BY revision DESC LIMIT 1`, i.e. the
row for the key with the largest revision (unique under the primary-key
invariant; on the impossible tie the first row in table order is kept,
matching an arbitrary but fixed choice by the database). `pickMaxRev` is
the fold step selecting the row with the largest revision. -/
def pickMaxRev (acc : Option Row) (q : Row) : Option Row :=
  match acc with
  | none => some q
  | some b => if q.revision > b.revision then some q else acc

/-- The SQL function `etcd_get`, see `pickMaxRev`. -/
def etcd_get (t : Table) (k : String) : Option Row :=
  (t.filter fun q => q.key == k).foldl pickMaxRev none

/-- `GetLatestRevision` (`internal/sync/postgresql.go:151-166`):
`SELECT MAX(revision) FROM etcd WHERE revision > 0`, with a NULL result
(no positive revision) mapped to `0`. -/
def getLatestRevision (t : Table) : Int :=
  (t.filter fun q => q.revision > 0).foldl (fun acc q => max acc q.revision) 0

/-- Result of `UpdateRevision` (`internal/sync/postgresql.go:134-149`). -/
inductive UpdateResult where
  /-- the UPDATE matched at least one row and committed -/
  | ok (t : Table)
  /-- zero rows matched: the Go function returns the error
  `no pending record found for key <k>` -/
  | noPending
  /-- the UPDATE would duplicate a primary key: PostgreSQL rejects the
  statement with a unique violation and the Go function returns that
  error -/
  | sqlError
deriving Repr, DecidableEq

/-- `UpdateRevision` (`internal/sync/postgresql.go:134-149`):
`UPDATE etcd SET revision = $2 WHERE key = $1 AND revision = -1`.
Zero affected rows is an error (`no pending record found`); a primary-key
collision with an existing `(key, rev)` row is a database error and
leaves the table unchanged. -/
def updateRevision (t : Table) (k : String) (rev : Int) : UpdateResult :=
  if containsPK t k (-1) then
    if rev ≠ -1 && containsPK t k rev then
      .sqlError
    else
      .ok (t.map fun q =>
        if q.key == k && q.revision == -1 then { q with revision := rev } else q)
  else
    .noPending

/-- An etcd watch event (`clientv3.Event`): the event type is the raw
`mvccpb.Event_EventType` integer (`PUT = 0`, `DELETE = 1`; the Go switch
has a `default` branch for any other value), together with the event's
key, value and `ModRevision`. -/
structure Event where
  type : Int
  key : String
  value : String
  modRevision : Int
deriving Repr, DecidableEq

/-- `clientv3.EventTypePut` (= `mvccpb.PUT` = 0). -/
def eventTypePut : Int := 0

/-- `clientv3.EventTypeDelete` (= `mvccpb.DELETE` = 1). -/
def eventTypeDelete : Int := 1

/-- `processEtcdEvent` (`internal/sync/sync.go:151-197`): a PUT event
becomes `{key, value, revision = ModRevision, tombstone = false}`, a
DELETE event becomes `{key, "", revision = ModRevision, tombstone =
true}`, anything else is the error `unknown event type`; the record is
then written with `BulkInsert`. -/
def processEtcdEvent (t : Table) (now : Nat) (e : Event) : Except String Table :=
  if e.type = eventTypePut then
    .ok (bulkInsert t [⟨e.key, e.value, e.modRevision, now, false⟩])
  else if e.type = eventTypeDelete then
    .ok (bulkInsert t [⟨e.key, "", e.modRevision, now, true⟩])
  else
    .error "unknown event type"

/-- The etcd range response consumed by `GetAllKeys`
(`internal/sync/etcd.go:64-89`): the key-value pairs (key, value,
ModRevision) and the response header revision, which the Go code only
logs. -/
structure RangeResponse where
  kvs : List (String × String × Int)
  headerRevision : Int
deriving Repr, DecidableEq

/-- `GetAllKeys` (`internal/sync/etcd.go:64-89`): each returned pair
becomes a record with `Tombstone = false`; the header revision is logged
and discarded. The record `Ts` is zero here because `initialSync` fills
it in. -/
def getAllKeys (resp : RangeResponse) : List KeyValueRecord :=
  resp.kvs.map fun kv => ⟨kv.1, kv.2.1, kv.2.2, 0, false⟩

/-- `initialSync` (`internal/sync/sync.go:64-98`): fetch all pairs; if
none, do nothing; otherwise stamp each record with the current time and
`BulkInsert` them. The Go function returns only an error — it returns no
revision to its caller. -/
def initialSync (t : Table) (now : Nat) (resp : RangeResponse) : Table :=
  let pairs := getAllKeys resp
  if pairs.isEmpty then t
  else bulkInsert t (pairs.map fun p => { p with ts := now })

/-- The baseline the forward path actually uses
(`internal/sync/sync.go:100-111`): `syncEtcdToPostgreSQL` reads
`GetLatestRevision` from the table and hands it to the watch. -/
def forwardBaseline (t : Table) : Int :=
  getLatestRevision t

/-- The options `WatchPrefix` passes to `clientv3.Watch`
(`internal/sync/etcd.go:48-62`): always `WithPrefix()`, and
`WithRev(startRevision + 1)` only when `startRevision > 0`; `rev = none`
means the revision option is omitted and the subscription starts at the
current etcd state. -/
structure WatchOptions where
  withPfx : Bool
  rev : Option Int
deriving Repr, DecidableEq

/-- `WatchPrefix` (`internal/sync/etcd.go:48-62`), reduced to the options
it builds from its start revision. -/
def watchPrefixOpts (startRevision : Int) : WatchOptions :=
  { withPfx := true
    rev := if startRevision > 0 then some (startRevision + 1) else none }

/-- One delivery on the watch channel as `WatchWithRecovery`
(`internal/sync/etcd.go:175-241`) sees it: the channel closed, the
response was canceled, the response carried an error (`isCompacted`
records whether that error is the etcd "required revision has been
compacted" error — the Go code never inspects the error value), or a
batch of events. -/
inductive WatchOutcome where
  | closed
  | canceled
  | err (isCompacted : Bool)
  | events (evs : List Event)
deriving Repr, DecidableEq

/-- What the recovery wrapper does after one delivery: either keep the
cursor and forward events, re-subscribe by calling `WatchPrefix` at a
cursor revision, or escalate to a full initial sync (the action the
specification demands on compaction; `WatchWithRecovery` has no code
path producing it). -/
inductive RecoveryAction where
  | forward (newCursor : Int)
  | resubscribe (cursor : Int)
  | fullResync
deriving Repr, DecidableEq

/-- Cursor advance of `WatchWithRecovery`
(`internal/sync/etcd.go:213-218`): take the largest `ModRevision` seen. -/
def advanceCursor (cursor : Int) (evs : List Event) : Int :=
  evs.foldl (fun c e => if e.modRevision > c then e.modRevision else c) cursor

/-- One step of `WatchWithRecovery` (`internal/sync/etcd.go:175-241`):
on channel close, cancellation or any error (the error value is not
inspected, so compaction is treated like any other error) the wrapper
breaks out of the inner loop and re-subscribes with
`WatchPrefix(ctx, prefix, currentRevision)` after a fixed one-second
sleep; on events it advances the cursor and forwards the response. -/
def watchRecoveryStep (currentRevision : Int) (o : WatchOutcome) : RecoveryAction :=
  match o with
  | .closed => .resubscribe currentRevision
  | .canceled => .resubscribe currentRevision
  | .err _ => .resubscribe currentRevision
  | .events evs => .forward (advanceCursor currentRevision evs)

/-- Result of a retried operation: success, the cancellation error
(`ctx.Err()`), or the terminal failure wrapping the last retryable
error. -/
inductive RetryResult where
  | ok
  | ctxErr
  | failedAfter (lastErr : Option String)
deriving Repr, DecidableEq

/-- The loop body of `RetryWithBackoff`
(`internal/sync/retry.go:27-61`), by recursion on the remaining
iterations of `for attempt := 0; attempt <= MaxRetries; attempt++`.
Before every attempt except the first the Go loop waits in a
`select { case <-ctx.Done(): return ctx.Err(); case <-time.After(delay) }`;
`canceled n` abstracts whether the context is already canceled when the
wait before attempt `n` runs (the backoff delay value itself does not
influence the returned result, only when the waits happen, which the
`canceled` predicate encodes). `op n` is attempt `n`'s error, `none` on
success. -/
def retryGo (canceled : Nat → Bool) (op : Nat → Option String) :
    Nat → Nat → Option String → RetryResult
  | _, 0, lastErr => .failedAfter lastErr
  | attempt, remaining + 1, _ =>
    if attempt > 0 && canceled attempt then .ctxErr
    else
      match op attempt with
      | none => .ok
      | some e => retryGo canceled op (attempt + 1) remaining (some e)

/-- `RetryWithBackoff` (`internal/sync/retry.go:27-61`): attempts
`0 .. MaxRetries`; after the loop the last error is wrapped in
`operation failed after N attempts`. -/
def retryWithBackoff (maxRetries : Nat) (canceled : Nat → Bool)
    (op : Nat → Option String) : RetryResult :=
  retryGo canceled op 0 (maxRetries + 1) none

/-- The loop of sethvargo/go-retry's `retry.Do` as `WithOperation`
(`retry` package, `WithOperation`, wrapping every error as retryable)
configures it: run the operation; on success stop; otherwise ask the
backoff for the next delay — after `maxRetries` retries the backoff
stops and the last error is returned — and wait in a select on
`ctx.Done()` versus the timer, returning `ctx.Err()` when the context is
canceled during the wait. The external library's loop is modelled from
its documented semantics; `canceled n` abstracts cancellation observed
at the wait before attempt `n`. -/
def retryDoGo (canceled : Nat → Bool) (op : Nat → Option String) :
    Nat → Nat → RetryResult
  | attempt, 0 =>
    (match op attempt with
     | none => .ok
     | some e => .failedAfter (some e))
  | attempt, remaining + 1 =>
    match op attempt with
    | none => .ok
    | some _ =>
      if canceled (attempt + 1) then .ctxErr
      else retryDoGo canceled op (attempt + 1) remaining

/-- `WithOperation` (`retry` package): `retry.Do` with
`WithMaxRetries(maxRetries, ...)`, every operation error marked
retryable. -/
def withOperation (maxRetries : Nat) (canceled : Nat → Bool)
    (op : Nat → Option String) : RetryResult :=
  retryDoGo canceled op 0 maxRetries

/-- `processPendingRecord` (`internal/sync/sync.go:246-305`): apply the
pending record to etcd (`Delete` for a tombstone, `Put` otherwise; the
outcome of that call, after its own retries, is `etcdResult` — an error,
or the response header revision), then stamp the revision back with
`UpdateRevision`, whose error (including the zero-rows case) is returned
unchanged. -/
def processPendingRecord (t : Table) (etcdResult : Except String Int)
    (record : KeyValueRecord) : Except String Table :=
  match etcdResult with
  | .error e =>
    .error ((if record.tombstone then "failed to delete key from etcd: "
             else "failed to put key to etcd: ") ++ e)
  | .ok newRevision =>
    match updateRevision t record.key newRevision with
    | .ok t2 => .ok t2
    | .noPending => .error ("no pending record found for key " ++ record.key)
    | .sqlError => .error "failed to update revision"

/-- The operations through which application code and the sync daemon
mutate the `etcd` table: `InsertPendingRecord` (behind `kv_put` /
`kv_delete`), `BulkInsert` (initial sync and forward path) and
`UpdateRevision` (reverse path). -/
inductive Op where
  | insertPending (now : Nat) (key value : String) (tombstone : Bool)
  | bulk (records : List KeyValueRecord)
  | update (key : String) (rev : Int)

/-- Apply one operation; a failed `UpdateRevision` leaves the table
unchanged. -/
def applyOp (t : Table) : Op → Table
  | .insertPending now k v tb => insertPendingRecord t now k v tb
  | .bulk recs => bulkInsert t recs
  | .update k rev =>
    match updateRevision t k rev with
    | .ok t2 => t2
    | _ => t

/-- The table state reached by running a sequence of operations against
the freshly installed (empty) `etcd` table. -/
def reachable (ops : List Op) : Table :=
  ops.foldl applyOp []

/-- Number of rows with `(key = k, revision = -1)`. -/
def pendingCount (t : Table) (k : String) : Nat :=
  t.countP fun q => q.key == k && q.revision == -1

/-- Splitting a character list at every occurrence of `c` (the
character-level counterpart of `strings.Split`; all separators in the
DSN grammar are single characters). -/
def splitChar (c : Char) : List Char → List (List Char)
  | [] => [[]]
  | a :: as =>
    let r := splitChar c as
    if a = c then [] :: r
    else
      match r with
      | [] => [[a]]
      | h :: t => (a :: h) :: t

/-- Joining character lists with a separator character (the counterpart
of `strings.Join`). -/
def joinChar (c : Char) : List (List Char) → List Char
  | [] => []
  | [x] => x
  | x :: xs => x ++ c :: joinChar c xs

/-- Split of a scheme-stripped URL at the first `?`: the part before the
query (models how Go `net/url.Parse` separates the query;
percent-escapes are not modelled, which is exact for DSNs containing
none). -/
def urlBeforeQuery (s : List Char) : List Char :=
  (splitChar '?' s).headD []

/-- Split of a scheme-stripped URL at the first `?`: the raw query. -/
def urlQueryPart (s : List Char) : List Char :=
  joinChar '?' (splitChar '?' s).tail

/-- The authority of a scheme-stripped URL: everything before the first
`/`. -/
def urlAuthority (beforeQ : List Char) : List Char :=
  (splitChar '/' beforeQ).headD []

/-- The path of a scheme-stripped URL: empty when there is no `/`,
otherwise `/` followed by the remainder (as Go `net/url` reports
`u.Path`). -/
def urlPath (beforeQ : List Char) : List Char :=
  match splitChar '/' beforeQ with
  | [] => []
  | [_] => []
  | _ :: rest => '/' :: joinChar '/' rest

/-- The host of an authority: everything after the last `@` (Go
`net/url` splits userinfo at the last `@`). -/
def authorityHost (authority : List Char) : List Char :=
  (splitChar '@' authority).getLastD []

/-- The userinfo of an authority, when an `@` is present. -/
def authorityUserinfo (authority : List Char) : Option (List Char) :=
  match splitChar '@' authority with
  | [] => none
  | [_] => none
  | parts => some (joinChar '@' parts.dropLast)

/-- `url.Values.Get`: the first value bound to `name` in the raw query,
`""` when absent (each `k=v` pair split at its first `=`). -/
def queryParamGet (query : List Char) (name : String) : String :=
  String.mk
    (((splitChar '&' query).filterMap fun pair =>
      match splitChar '=' pair with
      | [] => none
      | k :: rest =>
        if k = name.data then some (joinChar '=' rest) else none).headD [])

/-- The `clientv3.Config` fields `parseEtcdDSN` populates. The
`dial_timeout` query parameter is kept raw (`none` = the 5 s default;
Go additionally validates it with `time.ParseDuration`, which no claim
touches). -/
structure EtcdConfig where
  endpoints : List String
  dialTimeoutParam : Option String
  username : Option String
  password : Option String
  insecureTLS : Bool
deriving Repr, DecidableEq

/-- `parseEtcdDSN` (`internal/sync/etcd.go:249-322`): reject an empty
DSN and a DSN not starting with `etcd://`; split the host on `,` into
endpoints, appending `:2379` to any endpoint not containing `:`; take
username/password from userinfo when non-empty, overridden by the
`username` / `password` query parameters when non-empty; `tls=enabled`
switches on (insecure) TLS. The host being empty is not checked
anywhere. -/
def parseEtcdDSN (dsn : String) : Except String EtcdConfig :=
  if dsn = "" then .error "etcd DSN is required"
  else if ¬ ("etcd://".data.isPrefixOf dsn.data) then
    .error "etcd DSN must start with etcd://"
  else
    let rest := dsn.data.drop 7
    let beforeQ := urlBeforeQuery rest
    let query := urlQueryPart rest
    let authority := urlAuthority beforeQ
    let host := authorityHost authority
    let userinfo := authorityUserinfo authority
    let endpoints := (splitChar ',' host).map fun e =>
      if e.contains ':' then String.mk e else String.mk (e ++ ":2379".data)
    let userFromInfo : Option String :=
      match userinfo with
      | none => none
      | some ui =>
        let name := (splitChar ':' ui).headD []
        if name = [] then none else some (String.mk name)
    let passFromInfo : Option String :=
      match userinfo with
      | none => none
      | some ui =>
        match splitChar ':' ui with
        | [] => none
        | [_] => none
        | _ :: restParts =>
          let p := joinChar ':' restParts
          if p = [] then none else some (String.mk p)
    let qUser := queryParamGet query "username"
    let qPass := queryParamGet query "password"
    let dt := queryParamGet query "dial_timeout"
    .ok { endpoints := endpoints
          dialTimeoutParam := if dt = "" then none else some dt
          username := if qUser ≠ "" then some qUser else userFromInfo
          password := if qPass ≠ "" then some qPass else passFromInfo
          insecureTLS := queryParamGet query "tls" = "enabled" }

/-- `GetPrefix` (`internal/sync/etcd.go:324-341`): `/` for an empty or
non-`etcd://` DSN, otherwise the URL path, with an empty path mapped to
`/`. -/
def getPrefixPath (dsn : String) : String :=
  if dsn = "" ∨ ¬ ("etcd://".data.isPrefixOf dsn.data) then "/"
  else
    let path := urlPath (urlBeforeQuery (dsn.data.drop 7))
    if path = [] then "/" else String.mk path

/-- The largest positive modification revision among a batch of records
(0 when none is positive); the value `GetLatestRevision` reports after
these records are upserted into an empty table. -/
def maxPosRev (records : List KeyValueRecord) : Int :=
  records.foldl (fun acc r => max acc (if r.revision > 0 then r.revision else 0)) 0

/-! ## Claim theorems -/

/-- C5: a PUT watch event inserts `{key, value, revision = ModRevision,
tombstone = false}`, a DELETE event inserts `{key, "", revision =
ModRevision, tombstone = true}`, and any other event type is rejected
with an error. -/
theorem c5_process_etcd_event (t : Table) (now : Nat) (e : Event) :
    (e.type = eventTypePut →
      processEtcdEvent t now e =
        .ok (upsert t ⟨e.key, some e.value, e.modRevision, now, false⟩))
    ∧ (e.type = eventTypeDelete →
      processEtcdEvent t now e =
        .ok (upsert t ⟨e.key, some "", e.modRevision, now, true⟩))
    ∧ (e.type ≠ eventTypePut → e.type ≠ eventTypeDelete →
      processEtcdEvent t now e = .error "unknown event type") := by
  refine ⟨fun h => ?_, fun h => ?_, fun h1 h2 => ?_⟩
  · simp [processEtcdEvent, h, bulkInsert, recordRow]
  · simp [processEtcdEvent, h, eventTypePut, eventTypeDelete, bulkInsert, recordRow]
  · simp [processEtcdEvent, h1, h2]

/-- C5 witness: evaluation of the three branches at concrete events. -/
theorem c5_witness :
    processEtcdEvent [] 3 ⟨0, "k", "v", 5⟩ =
      .ok (upsert [] ⟨"k", some "v", 5, 3, false⟩)
    ∧ processEtcdEvent [] 4 ⟨1, "k", "v", 6⟩ =
      .ok (upsert [] ⟨"k", some "", 6, 4, true⟩)
    ∧ processEtcdEvent [] 5 ⟨2, "k", "v", 7⟩ = .error "unknown event type" :=
  ⟨(c5_process_etcd_event [] 3 ⟨0, "k", "v", 5⟩).1 (by decide),
   (c5_process_etcd_event [] 4 ⟨1, "k", "v", 6⟩).2.1 (by decide),
   (c5_process_etcd_event [] 5 ⟨2, "k", "v", 7⟩).2.2 (by decide) (by decide)⟩

/-- C2: on a watch response whose error is the compaction error, the
recovery wrapper of the source merely re-subscribes at the old cursor
revision (here 5); it does not trigger a full initial sync — the
escalation the repository's own specification demands does not exist in
the code. -/
theorem c2_compaction_resubscribes_old_cursor :
    watchRecoveryStep 5 (.err true) = .resubscribe 5
    ∧ watchRecoveryStep 5 (.err true) ≠ .fullResync := by
  constructor
  · rfl
  · intro h
    simp [watchRecoveryStep] at h

/-- C4 counterexample: with no pending row for the key, the etcd
operation succeeds (header revision 7), the revision update matches zero
rows, and `processPendingRecord` returns an error — not a successful
no-op as the claim states. -/
theorem c4_counterexample :
    processPendingRecord [] (.ok 7) ⟨"k", "v", -1, 0, false⟩ =
      .error "no pending record found for key k" := by
  rfl

/-- C4 amended: when the revision update matches zero rows (no pending
row exists for the key), `UpdateRevision` returns the error
`no pending record found for key ...` and `processPendingRecord`
returns that error to its caller (which logs it and continues with the
other records). -/
theorem c4_update_zero_rows_errors_amended (t : Table) (rev : Int)
    (rec : KeyValueRecord) (h : containsPK t rec.key (-1) = false) :
    processPendingRecord t (.ok rev) rec =
      .error ("no pending record found for key " ++ rec.key) := by
  simp [processPendingRecord, updateRevision, h]

/-- C4 witness. -/
theorem c4_witness :
    processPendingRecord [⟨"x", some "1", 3, 0, false⟩] (.ok 9)
      ⟨"k", "v", -1, 0, true⟩ = .error "no pending record found for key k" :=
  c4_update_zero_rows_errors_amended [⟨"x", some "1", 3, 0, false⟩] 9
    ⟨"k", "v", -1, 0, true⟩ (by decide)

/-- C10: when the table has no positive revision, `GetLatestRevision`
computes 0, and the forward path's first watch subscription omits the
revision option (`rev = none`), so it begins at the current etcd state. -/
theorem c10_empty_table_watch_current (t : Table)
    (h : ∀ q ∈ t, ¬ q.revision > 0) :
    getLatestRevision t = 0
    ∧ watchPrefixOpts (forwardBaseline t) = ⟨true, none⟩ := by
  have hf : (t.filter fun q => q.revision > 0) = [] := by
    rw [List.filter_eq_nil_iff]
    intro q hq
    simpa using h q hq
  have h0 : getLatestRevision t = 0 := by
    rw [getLatestRevision, hf]
    rfl
  refine ⟨h0, ?_⟩
  rw [forwardBaseline, h0]
  rfl

/-- C10 witness: a table holding only a pending (-1) row. -/
theorem c10_witness :
    getLatestRevision [⟨"k", some "v", -1, 0, false⟩] = 0
    ∧ watchPrefixOpts (forwardBaseline [⟨"k", some "v", -1, 0, false⟩]) =
        ⟨true, none⟩ :=
  c10_empty_table_watch_current [⟨"k", some "v", -1, 0, false⟩] (by decide)

/-- C9 counterexample: a DSN with an empty host is not rejected:
`parseEtcdDSN` accepts it and produces the single endpoint `":2379"`. -/
theorem c9_counterexample :
    parseEtcdDSN "etcd:///app" =
      .ok { endpoints := [":2379"], dialTimeoutParam := none,
            username := none, password := none, insecureTLS := false } := by
  rfl

/-! ## Lemmas on `etcd_get` over an upsert (claim C1) -/

theorem foldl_pickMaxRev_keep (l : List Row) (r : Row)
    (h : ∀ q ∈ l, q = r ∨ q.revision < r.revision) :
    l.foldl pickMaxRev (some r) = some r := by
  induction l with
  | nil => rfl
  | cons q l ih =>
    have hq := h q (List.mem_cons_self q l)
    have hstep : pickMaxRev (some r) q = some r := by
      rcases hq with rfl | hlt
      · simp [pickMaxRev]
      · simp [pickMaxRev, not_lt.mpr (le_of_lt hlt)]
    rw [List.foldl_cons, hstep]
    exact ih fun q hq => h q (List.mem_cons_of_mem _ hq)

theorem foldl_pickMaxRev_reach (l : List Row) (r : Row) (hmem : r ∈ l)
    (h : ∀ q ∈ l, q = r ∨ q.revision < r.revision) :
    ∀ acc : Option Row,
      (acc = none ∨ ∃ b, acc = some b ∧ b.revision < r.revision) →
      l.foldl pickMaxRev acc = some r := by
  induction l with
  | nil => cases hmem
  | cons q l ih =>
    intro acc hacc
    have htail : ∀ q ∈ l, q = r ∨ q.revision < r.revision :=
      fun q hq => h q (List.mem_cons_of_mem _ hq)
    by_cases hqr : q = r
    · subst hqr
      have hstep : pickMaxRev acc q = some q := by
        rcases hacc with rfl | ⟨b, rfl, hb⟩
        · rfl
        · simp [pickMaxRev, hb]
      rw [List.foldl_cons, hstep]
      exact foldl_pickMaxRev_keep l q htail
    · have hlt : q.revision < r.revision := by
        rcases h q (List.mem_cons_self q l) with rfl | hlt
        · exact absurd rfl hqr
        · exact hlt
      have hmem' : r ∈ l := by
        rcases List.mem_cons.mp hmem with rfl | hm
        · exact absurd rfl hqr
        · exact hm
      rw [List.foldl_cons]
      refine ih hmem' htail (pickMaxRev acc q) ?_
      rcases hacc with rfl | ⟨b, rfl, hb⟩
      · exact Or.inr ⟨q, rfl, hlt⟩
      · right
        by_cases hgt : q.revision > b.revision
        · exact ⟨q, by simp [pickMaxRev, hgt], hlt⟩
        · exact ⟨b, by simp [pickMaxRev, hgt], hb⟩

theorem mem_upsert_self (t : Table) (r : Row) : r ∈ upsert t r := by
  rw [upsert]
  by_cases hc : containsPK t r.key r.revision
  · rw [if_pos hc]
    rcases List.any_eq_true.mp hc with ⟨q0, hq0, hmatch⟩
    refine List.mem_map.mpr ⟨q0, hq0, ?_⟩
    simp [hmatch]
  · rw [if_neg hc]
    exact List.mem_append_right _ (List.mem_singleton.mpr rfl)

theorem mem_upsert_low (t : Table) (r : Row)
    (hk : ∀ q ∈ t, q.key = r.key → q.revision ≤ r.revision) :
    ∀ q ∈ upsert t r, q.key = r.key → q = r ∨ q.revision < r.revision := by
  intro q hq hkey
  rw [upsert] at hq
  by_cases hc : containsPK t r.key r.revision
  · rw [if_pos hc] at hq
    rcases List.mem_map.mp hq with ⟨q0, hq0, hq0eq⟩
    by_cases hm : (q0.key == r.key && q0.revision == r.revision) = true
    · left
      rw [← hq0eq]
      simp [hm]
    · right
      rw [← hq0eq] at hkey ⊢
      simp only [hm, if_neg] at hkey ⊢
      simp only [Bool.and_eq_true, beq_iff_eq, not_and] at hm
      have hne : q0.revision ≠ r.revision := hm hkey
      exact lt_of_le_of_ne (hk q0 hq0 hkey) hne
  · rw [if_neg hc] at hq
    rcases List.mem_append.mp hq with hq | hq
    · right
      have hne : q.revision ≠ r.revision := by
        intro habs
        exact hc (List.any_eq_true.mpr ⟨q, hq, by simp [hkey, habs]⟩)
      exact lt_of_le_of_ne (hk q hq hkey) hne
    · left
      exact List.mem_singleton.mp hq

theorem etcd_get_upsert_low (t : Table) (r : Row)
    (hk : ∀ q ∈ t, q.key = r.key → q.revision ≤ r.revision) :
    etcd_get (upsert t r) r.key = some r := by
  rw [etcd_get]
  refine foldl_pickMaxRev_reach _ r ?_ ?_ none (Or.inl rfl)
  · exact List.mem_filter.mpr ⟨mem_upsert_self t r, by simp⟩
  · intro q hq
    have := List.mem_filter.mp hq
    exact mem_upsert_low t r hk q this.1 (by simpa using this.2)

/-- C1 counterexample: the table already holds `("k", "old")` at
revision 5; after `kv_put("k", "v")` (a pending row at revision -1),
`kv_get("k")` (`etcd_get`, ordering by revision descending) still
returns the revision-5 row, not the pending write. -/
theorem c1_counterexample :
    etcd_get (insertPendingRecord [⟨"k", some "old", 5, 0, false⟩] 7 "k" "v" false) "k"
      = some ⟨"k", some "old", 5, 0, false⟩
    ∧ (some (⟨"k", some "old", 5, 0, false⟩ : Row)
        ≠ some (⟨"k", some "v", -1, 7, false⟩ : Row)) := by
  exact ⟨by rfl, by decide⟩

/-- C1 amended: `kv_put(k, v)` immediately followed by `kv_get(k)`
returns `v` with revision -1 provided the table holds no row for `k`
with a revision above -1; when a positive-revision row for `k` exists,
`kv_get` returns that row instead, because `etcd_get` orders by
revision descending and -1 sorts below every positive revision. -/
theorem c1_kv_put_then_get_amended (t : Table) (now : Nat) (k v : String)
    (h : ∀ q ∈ t, q.key = k → q.revision ≤ -1) :
    etcd_get (insertPendingRecord t now k v false) k
      = some ⟨k, some v, -1, now, false⟩ := by
  have := etcd_get_upsert_low t ⟨k, some v, -1, now, false⟩ h
  simpa [insertPendingRecord] using this

/-- C1 witness: a prior pending tombstone for the key is overwritten and
read back. -/
theorem c1_witness :
    etcd_get (insertPendingRecord [⟨"k", some "", -1, 0, true⟩] 3 "k" "v" false) "k"
      = some ⟨"k", some "v", -1, 3, false⟩ :=
  c1_kv_put_then_get_amended [⟨"k", some "", -1, 0, true⟩] 3 "k" "v" (by decide)

/-- C9 amended: an empty DSN and a DSN without the `etcd://` scheme are
rejected; an empty host is NOT rejected (it yields the single endpoint
`":2379"`, see the counterexample); every endpoint in an accepted
configuration carries a `:` port separator (endpoints without one get
`:2379` appended); the URL path is the key prefix and a missing path
yields `/`. -/
theorem c9_dsn_amended :
    parseEtcdDSN "" = .error "etcd DSN is required"
    ∧ (∀ dsn : String, ¬ ("etcd://".data.isPrefixOf dsn.data) →
        parseEtcdDSN dsn = .error "etcd DSN is required"
        ∨ parseEtcdDSN dsn = .error "etcd DSN must start with etcd://")
    ∧ (∀ (dsn : String) (cfg : EtcdConfig), parseEtcdDSN dsn = .ok cfg →
        ∀ ep ∈ cfg.endpoints, ep.data.contains ':')
    ∧ getPrefixPath "etcd://host:2379" = "/"
    ∧ getPrefixPath "etcd://host:2379/app/x" = "/app/x" := by
  refine ⟨rfl, ?_, ?_, rfl, rfl⟩
  · intro dsn hpre
    by_cases h0 : dsn = ""
    · left
      simp [parseEtcdDSN, h0]
    · right
      simp [parseEtcdDSN, h0, hpre]
  · intro dsn cfg hok ep hep
    rw [parseEtcdDSN] at hok
    by_cases h0 : dsn = ""
    · rw [if_pos h0] at hok
      cases hok
    · by_cases hpre : ("etcd://".data.isPrefixOf dsn.data)
      · rw [if_neg h0, if_neg (not_not_intro hpre)] at hok
        simp only [Except.ok.injEq] at hok
        subst hok
        simp only [List.mem_map] at hep
        rcases hep with ⟨e, _, hef⟩
        by_cases hc : e.contains ':'
        · rw [← hef, if_pos hc]
          exact hc
        · rw [← hef]
          simp only [hc, Bool.false_eq_true, if_false]
          show (e ++ ":2379".data).contains ':' = true
          simp [List.contains, List.elem_iff, List.mem_append]
      · rw [if_neg h0, if_pos (by simpa using hpre)] at hok
        cases hok

/-- C9 witness: a non-`etcd://` DSN is rejected, and an accepted
two-endpoint DSN has a port separator in its first endpoint. -/
theorem c9_witness :
    (parseEtcdDSN "postgres://x" = .error "etcd DSN is required"
      ∨ parseEtcdDSN "postgres://x" = .error "etcd DSN must start with etcd://")
    ∧ "h1:2379".data.contains ':' :=
  ⟨c9_dsn_amended.2.1 "postgres://x" (by decide),
   c9_dsn_amended.2.2.1 "etcd://h1,h2:99/p"
     ⟨["h1:2379", "h2:99"], none, none, none, false⟩ (by rfl) "h1:2379" (by decide)⟩

/-! ## Retry-loop cancellation (claim C7) -/

theorem retryGo_cancel (canceled : Nat → Bool) (op : Nat → Option String)
    (k : Nat) (hk : 1 ≤ k)
    (hmono : ∀ m, k ≤ m → canceled m = true)
    (hfail : ∀ m, m < k → (op m).isSome) :
    ∀ remaining attempt (lastErr : Option String), attempt ≤ k →
      k < attempt + remaining →
      retryGo canceled op attempt remaining lastErr = .ctxErr := by
  intro remaining
  induction remaining with
  | zero =>
    intro attempt lastErr hle hlt
    omega
  | succ rem ih =>
    intro attempt lastErr hle hlt
    rw [retryGo]
    by_cases hcond : (decide (attempt > 0) && canceled attempt) = true
    · simp [hcond]
    · have hattlt : attempt < k := by
        rcases lt_or_eq_of_le hle with h | h
        · exact h
        · exfalso
          apply hcond
          subst h
          simp [hmono attempt le_rfl, Nat.lt_of_lt_of_le Nat.zero_lt_one hk]
      rcases Option.isSome_iff_exists.mp (hfail attempt hattlt) with ⟨e, he⟩
      simp only [hcond, Bool.false_eq_true, if_false, he]
      exact ih (attempt + 1) (some e) hattlt (by omega)

theorem retryDoGo_cancel (canceled : Nat → Bool) (op : Nat → Option String)
    (k : Nat)
    (hmono : ∀ m, k ≤ m → canceled m = true)
    (hfail : ∀ m, m < k → (op m).isSome) :
    ∀ remaining attempt, attempt < k → k ≤ attempt + remaining →
      retryDoGo canceled op attempt remaining = .ctxErr := by
  intro remaining
  induction remaining with
  | zero =>
    intro attempt hlt hle
    omega
  | succ rem ih =>
    intro attempt hlt hle
    rcases Option.isSome_iff_exists.mp (hfail attempt hlt) with ⟨e, he⟩
    rw [retryDoGo, he]
    by_cases hc : canceled (attempt + 1) = true
    · simp [hc]
    · have hlt' : attempt + 1 < k := by
        rcases Nat.lt_or_ge (attempt + 1) k with h | h
        · exact h
        · exact absurd (hmono (attempt + 1) h) hc
      simp only [hc, if_false]
      exact ih (attempt + 1) hlt' (by omega)

/-- C7: in both retry loops — the repository's `RetryWithBackoff` and
`WithOperation` (the `retry.Do` loop of the backoff library) — if the
cancellation token is canceled at the wait before some remaining
attempt `k` (and the operation has not yet succeeded), the loop returns
the cancellation error, never the last retryable error. -/
theorem c7_retry_cancellation :
    (∀ (maxRetries k : Nat) (canceled : Nat → Bool) (op : Nat → Option String),
        1 ≤ k → k ≤ maxRetries →
        (∀ m, k ≤ m → canceled m = true) →
        (∀ m, m < k → (op m).isSome) →
        retryWithBackoff maxRetries canceled op = .ctxErr)
    ∧ (∀ (maxRetries k : Nat) (canceled : Nat → Bool) (op : Nat → Option String),
        1 ≤ k → k ≤ maxRetries →
        (∀ m, k ≤ m → canceled m = true) →
        (∀ m, m < k → (op m).isSome) →
        withOperation maxRetries canceled op = .ctxErr) := by
  constructor
  · intro maxRetries k canceled op hk hkmax hmono hfail
    exact retryGo_cancel canceled op k hk hmono hfail (maxRetries + 1) 0 none
      (Nat.zero_le _) (by omega)
  · intro maxRetries k canceled op hk hkmax hmono hfail
    exact retryDoGo_cancel canceled op k hmono hfail maxRetries 0 (by omega)
      (by omega)

/-- C7 witness: with the token canceled from the start and a failing
operation, both loops report the cancellation error. -/
theorem c7_witness :
    retryWithBackoff 3 (fun _ => true) (fun _ => some "err") = .ctxErr
    ∧ withOperation 3 (fun _ => true) (fun _ => some "err") = .ctxErr :=
  ⟨c7_retry_cancellation.1 3 1 (fun _ => true) (fun _ => some "err")
      (by decide) (by decide) (fun _ _ => rfl) (fun _ _ => rfl),
   c7_retry_cancellation.2 3 1 (fun _ => true) (fun _ => some "err")
      (by decide) (by decide) (fun _ _ => rfl) (fun _ _ => rfl)⟩

/-! ## At most one pending row per key (claim C6) -/

theorem pendingCount_upsert (t : Table) (r : Row) (k : String)
    (h : pendingCount t k ≤ 1) : pendingCount (upsert t r) k ≤ 1 := by
  rw [upsert]
  by_cases hc : containsPK t r.key r.revision
  · rw [if_pos hc, pendingCount, List.countP_map]
    have hcong : ∀ q ∈ t,
        ((fun q : Row => q.key == k && q.revision == -1) ∘ fun q : Row =>
          if q.key == r.key && q.revision == r.revision then r else q) q = true
        ↔ (fun q : Row => q.key == k && q.revision == -1) q = true := by
      intro q _
      simp only [Function.comp_apply]
      by_cases hm : (q.key == r.key && q.revision == r.revision) = true
      · have hkey : q.key = r.key := beq_iff_eq.mp ((Bool.and_eq_true _ _).mp hm).1
        have hrev : q.revision = r.revision := beq_iff_eq.mp ((Bool.and_eq_true _ _).mp hm).2
        rw [if_pos hm, hkey, hrev]
      · rw [if_neg hm]

    rw [List.countP_congr hcong]
    exact h
  · rw [if_neg hc, pendingCount, List.countP_append]
    by_cases hp : (r.key == k && r.revision == -1) = true
    · have hkey : r.key = k := beq_iff_eq.mp ((Bool.and_eq_true _ _).mp hp).1
      have hrev : r.revision = -1 := beq_iff_eq.mp ((Bool.and_eq_true _ _).mp hp).2
      have hzero : List.countP (fun q : Row => q.key == k && q.revision == -1) t = 0 := by
        rw [List.countP_eq_zero]
        intro q hq hpq
        apply hc
        rw [containsPK, List.any_eq_true]
        refine ⟨q, hq, ?_⟩
        have hqk : q.key = k := beq_iff_eq.mp ((Bool.and_eq_true _ _).mp hpq).1
        have hqr : q.revision = -1 := beq_iff_eq.mp ((Bool.and_eq_true _ _).mp hpq).2
        simp [hqk, hqr, hkey, hrev]
      rw [hzero]
      simp [List.countP_cons, hp]
    · have hone : List.countP (fun q : Row => q.key == k && q.revision == -1) [r] = 0 := by
        simp [List.countP_cons, hp]
      rw [hone]
      rw [pendingCount] at h
      omega

theorem pendingCount_foldl_upsert (rows : List Row) (t : Table)
    (h : ∀ k, pendingCount t k ≤ 1) :
    ∀ k, pendingCount (rows.foldl upsert t) k ≤ 1 := by
  induction rows generalizing t with
  | nil => exact h
  | cons r rows ih =>
    intro k
    exact ih (upsert t r) (fun k' => pendingCount_upsert t r k' (h k')) k

theorem updateRevision_ok_shape (t : Table) (k : String) (rev : Int)
    (t2 : Table) (h : updateRevision t k rev = .ok t2) :
    t2 = t.map fun q =>
      if q.key == k && q.revision == -1 then { q with revision := rev } else q := by
  rw [updateRevision] at h
  split_ifs at h with h1 h2
  cases h
  rfl

theorem pendingCount_update_map (t : Table) (ku : String) (rev : Int)
    (k : String) (h : pendingCount t k ≤ 1) :
    pendingCount (t.map fun q =>
      if q.key == ku && q.revision == -1 then { q with revision := rev } else q) k
      ≤ 1 := by
  rw [pendingCount, List.countP_map]
  refine le_trans (List.countP_mono_left ?_) h
  intro q _ hpq
  by_cases hm : (q.key == ku && q.revision == -1) = true
  · simp only [Function.comp_apply, hm, if_pos] at hpq
    have hrev : q.revision = -1 := beq_iff_eq.mp ((Bool.and_eq_true _ _).mp hm).2
    have hk : q.key = k := by
      have := ((Bool.and_eq_true _ _).mp hpq).1
      exact beq_iff_eq.mp this
    simp [hk, hrev]
  · simpa only [Function.comp_apply, hm, Bool.false_eq_true, if_false] using hpq

/-- C6: from the freshly installed schema, under any sequence of
`InsertPendingRecord`, `BulkInsert` and `UpdateRevision` operations,
every key has at most one row with revision -1: a second pending insert
for the same key merges into the existing pending row through the
`(key, revision)` primary-key upsert. -/
theorem c6_at_most_one_pending (ops : List Op) (k : String) :
    pendingCount (reachable ops) k ≤ 1 := by
  rw [reachable]
  have main : ∀ (t : Table), (∀ k', pendingCount t k' ≤ 1) →
      ∀ k', pendingCount (ops.foldl applyOp t) k' ≤ 1 := by
    induction ops with
    | nil => intro t ht k'; exact ht k'
    | cons op ops ih =>
      intro t ht k'
      rw [List.foldl_cons]
      refine ih (applyOp t op) ?_ k'
      intro k''
      cases op with
      | insertPending now ki v tb =>
        exact pendingCount_upsert t _ k'' (ht k'')
      | bulk recs =>
        exact pendingCount_foldl_upsert (recs.map recordRow) t ht k''
      | update ku rev =>
        show pendingCount (applyOp t (.update ku rev)) k'' ≤ 1
        rw [applyOp]
        cases hcase : updateRevision t ku rev with
        | ok t2 =>
          rw [updateRevision_ok_shape t ku rev t2 hcase]
          exact pendingCount_update_map t ku rev k'' (ht k'')
        | noPending => exact ht k''
        | sqlError => exact ht k''
  exact main [] (fun k' => by simp [pendingCount]) k

/-! ## Baseline computation (claim C3) -/

theorem foldl_maxrev_init (l : List Row) :
    ∀ a : Int, a ≤ l.foldl (fun acc q => max acc q.revision) a := by
  induction l with
  | nil => intro a; exact le_refl a
  | cons q l ih =>
    intro a
    exact le_trans (le_max_left a q.revision) (ih (max a q.revision))

theorem foldl_maxrev_mem (l : List Row) :
    ∀ (a : Int) (q : Row), q ∈ l →
      q.revision ≤ l.foldl (fun acc q => max acc q.revision) a := by
  induction l with
  | nil => intro a q hq; cases hq
  | cons x l ih =>
    intro a q hq
    rcases List.mem_cons.mp hq with rfl | hq
    · exact le_trans (le_max_right a q.revision) (foldl_maxrev_init l _)
    · exact ih _ q hq

theorem getLatestRevision_nonneg (t : Table) : 0 ≤ getLatestRevision t :=
  foldl_maxrev_init _ 0

theorem mem_pos_le_getLatestRevision (t : Table) (q : Row) (hq : q ∈ t)
    (hpos : q.revision > 0) : q.revision ≤ getLatestRevision t := by
  rw [getLatestRevision]
  exact foldl_maxrev_mem _ 0 q (List.mem_filter.mpr ⟨hq, by simpa using hpos⟩)

theorem glr_foldl_map (t : Table) (f : Row → Row)
    (hf : ∀ q ∈ t, (f q).revision = q.revision) :
    ∀ a : Int,
      ((t.map f).filter fun q => q.revision > 0).foldl
        (fun acc q => max acc q.revision) a
      = (t.filter fun q => q.revision > 0).foldl
          (fun acc q => max acc q.revision) a := by
  induction t with
  | nil => intro a; rfl
  | cons q t ih =>
    intro a
    have hq : (f q).revision = q.revision := hf q (List.mem_cons_self q t)
    have htl : ∀ p ∈ t, (f p).revision = p.revision :=
      fun p hp => hf p (List.mem_cons_of_mem _ hp)
    rw [List.map_cons, List.filter_cons, List.filter_cons]
    by_cases hpos : (decide (q.revision > 0)) = true
    · rw [hq, if_pos hpos, if_pos hpos, List.foldl_cons, List.foldl_cons, hq]
      exact ih htl _
    · rw [hq, if_neg hpos, if_neg hpos]
      exact ih htl _

theorem getLatestRevision_upsert (t : Table) (r : Row) :
    getLatestRevision (upsert t r)
      = max (getLatestRevision t) (if r.revision > 0 then r.revision else 0) := by
  rw [upsert]
  by_cases hc : containsPK t r.key r.revision
  · rw [if_pos hc]
    have hf : ∀ q ∈ t,
        ((if q.key == r.key && q.revision == r.revision then r else q) : Row).revision
          = q.revision := by
      intro q _
      by_cases hm : (q.key == r.key && q.revision == r.revision) = true
      · rw [if_pos hm]
        exact (beq_iff_eq.mp ((Bool.and_eq_true _ _).mp hm).2).symm
      · rw [if_neg hm]
    rw [getLatestRevision, glr_foldl_map t _ hf 0]
    rcases List.any_eq_true.mp hc with ⟨q, hq, hqm⟩
    have hqrev : q.revision = r.revision :=
      beq_iff_eq.mp ((Bool.and_eq_true _ _).mp hqm).2
    by_cases hpos : r.revision > 0
    · rw [if_pos hpos]
      have hle : r.revision ≤ getLatestRevision t := by
        rw [← hqrev]
        exact mem_pos_le_getLatestRevision t q hq (by rw [hqrev]; exact hpos)
      rw [getLatestRevision] at hle
      exact (max_eq_left hle).symm
    · rw [if_neg hpos]
      have := getLatestRevision_nonneg t
      rw [getLatestRevision] at this
      exact (max_eq_left this).symm
  · rw [if_neg hc, getLatestRevision, getLatestRevision, List.filter_append,
        List.foldl_append]
    by_cases hpos : r.revision > 0
    · rw [if_pos hpos]
      have hfil : List.filter (fun q => decide (q.revision > 0)) [r] = [r] := by
        simp [List.filter_cons, hpos]
      rw [hfil, List.foldl_cons]
      rfl
    · rw [if_neg hpos]
      have hfil : List.filter (fun q => decide (q.revision > 0)) [r] = [] := by
        simp [List.filter_cons, hpos]
      rw [hfil, List.foldl_nil]
      have := getLatestRevision_nonneg t
      rw [getLatestRevision] at this
      exact (max_eq_left this).symm

theorem foldl_maxpos_init (recs : List KeyValueRecord) :
    ∀ a : Int, 0 ≤ a →
      recs.foldl (fun acc r => max acc (if r.revision > 0 then r.revision else 0)) a
        = max a (maxPosRev recs) := by
  induction recs with
  | nil =>
    intro a ha
    rw [List.foldl_nil, maxPosRev, List.foldl_nil]
    exact (max_eq_left ha).symm
  | cons r recs ih =>
    intro a ha
    have hpos : (0 : Int) ≤ if r.revision > 0 then r.revision else 0 := by
      by_cases h : r.revision > 0
      · rw [if_pos h]; exact le_of_lt h
      · rw [if_neg h]
    rw [List.foldl_cons, ih _ (le_trans ha (le_max_left _ _))]
    have hrhs : maxPosRev (r :: recs)
        = max (if r.revision > 0 then r.revision else 0) (maxPosRev recs) := by
      rw [maxPosRev, List.foldl_cons, ih _ (by simp [hpos])]
      congr 1
      exact max_eq_right hpos
    rw [hrhs, max_assoc]

theorem getLatestRevision_bulkInsert (t : Table) (recs : List KeyValueRecord) :
    getLatestRevision (bulkInsert t recs)
      = max (getLatestRevision t) (maxPosRev recs) := by
  induction recs generalizing t with
  | nil =>
    rw [bulkInsert, List.map_nil, List.foldl_nil, maxPosRev, List.foldl_nil]
    exact (max_eq_left (getLatestRevision_nonneg t)).symm
  | cons r recs ih =>
    have hstep : bulkInsert t (r :: recs) = bulkInsert (upsert t (recordRow r)) recs := by
      rw [bulkInsert, bulkInsert, List.map_cons, List.foldl_cons]
    rw [hstep, ih, getLatestRevision_upsert]
    have hrec : (recordRow r).revision = r.revision := rfl
    rw [hrec]
    have hpos : (0 : Int) ≤ if r.revision > 0 then r.revision else 0 := by
      by_cases h : r.revision > 0
      · rw [if_pos h]; exact le_of_lt h
      · rw [if_neg h]
    have hrhs : maxPosRev (r :: recs)
        = max (if r.revision > 0 then r.revision else 0) (maxPosRev recs) := by
      rw [maxPosRev, List.foldl_cons, foldl_maxpos_init recs _ (by simp [hpos])]
      congr 1
      exact max_eq_right hpos
    rw [hrhs, max_assoc]

/-- C3 counterexample: etcd contains no keys (everything was deleted)
and the range response carries header revision 10; after initial sync
into an empty table the baseline the forward path computes is 0, not the
header revision 10 — `initialSync` returns no revision and the header
revision is only logged. -/
theorem c3_counterexample :
    forwardBaseline (initialSync [] 0 ⟨[], 10⟩) = 0
    ∧ (⟨[], 10⟩ : RangeResponse).headerRevision = 10
    ∧ (0 : Int) ≠ 10 := by
  exact ⟨rfl, rfl, by decide⟩

/-- C3 amended: `initialSync` returns no revision to its caller; the
forward path instead reads its baseline back from the table
(`GetLatestRevision`), and that baseline equals the maximum of the
pre-sync baseline and the largest modification revision among the
synced pairs. The response's header revision never enters the baseline
(after pure deletes on an empty table the baseline is 0). -/
theorem c3_baseline_from_table_amended (t : Table) (now : Nat)
    (resp : RangeResponse) :
    forwardBaseline (initialSync t now resp)
      = max (forwardBaseline t) (maxPosRev (getAllKeys resp)) := by
  rw [initialSync]
  by_cases he : (getAllKeys resp).isEmpty
  · rw [if_pos he]
    rw [List.isEmpty_iff.mp he]
    rw [forwardBaseline, maxPosRev, List.foldl_nil]
    exact (max_eq_left (getLatestRevision_nonneg t)).symm
  · rw [if_neg he]
    rw [forwardBaseline, getLatestRevision_bulkInsert]
    congr 1
    rw [maxPosRev, maxPosRev, List.foldl_map]

/-! ## Idempotence of the bulk upsert (claim C8) -/

theorem containsPK_iff_pk_mem (t : Table) (k : String) (rev : Int) :
    containsPK t k rev = true ↔ (k, rev) ∈ t.map Row.pk := by
  rw [containsPK, List.any_eq_true]
  constructor
  · rintro ⟨q, hq, hm⟩
    have hk : q.key = k := beq_iff_eq.mp ((Bool.and_eq_true _ _).mp hm).1
    have hr : q.revision = rev := beq_iff_eq.mp ((Bool.and_eq_true _ _).mp hm).2
    exact List.mem_map.mpr ⟨q, hq, by rw [Row.pk, hk, hr]⟩
  · rintro hmem
    rcases List.mem_map.mp hmem with ⟨q, hq, hpk⟩
    rw [Row.pk] at hpk
    refine ⟨q, hq, ?_⟩
    have hk : q.key = k := congrArg Prod.fst hpk
    have hr : q.revision = rev := congrArg Prod.snd hpk
    simp [hk, hr]

theorem containsPK_upsert_self (t : Table) (r : Row) :
    containsPK (upsert t r) r.key r.revision = true := by
  rw [containsPK, List.any_eq_true]
  exact ⟨r, mem_upsert_self t r, by simp⟩

theorem containsPK_upsert_mono (t : Table) (r : Row) (k : String) (rev : Int)
    (h : containsPK t k rev = true) :
    containsPK (upsert t r) k rev = true := by
  rcases List.any_eq_true.mp h with ⟨q, hq, hm⟩
  have hk : q.key = k := beq_iff_eq.mp ((Bool.and_eq_true _ _).mp hm).1
  have hr : q.revision = rev := beq_iff_eq.mp ((Bool.and_eq_true _ _).mp hm).2
  rw [upsert]
  by_cases hc : containsPK t r.key r.revision
  · rw [if_pos hc, containsPK, List.any_eq_true]
    by_cases hqm : (q.key == r.key && q.revision == r.revision) = true
    · have hk2 : q.key = r.key := beq_iff_eq.mp ((Bool.and_eq_true _ _).mp hqm).1
      have hr2 : q.revision = r.revision := beq_iff_eq.mp ((Bool.and_eq_true _ _).mp hqm).2
      refine ⟨r, List.mem_map.mpr ⟨q, hq, by rw [if_pos hqm]⟩, ?_⟩
      simp [← hk2, ← hr2, hk, hr]
    · exact ⟨q, List.mem_map.mpr ⟨q, hq, by rw [if_neg hqm]⟩, by simp [hk, hr]⟩
  · rw [if_neg hc, containsPK, List.any_eq_true]
    exact ⟨q, List.mem_append_left _ hq, by simp [hk, hr]⟩

theorem rowsAt_upsert_self (t : Table) (r : Row) :
    ∀ q ∈ upsert t r, (q.key == r.key && q.revision == r.revision) = true → q = r := by
  intro q hq hqm
  rw [upsert] at hq
  by_cases hc : containsPK t r.key r.revision
  · rw [if_pos hc] at hq
    rcases List.mem_map.mp hq with ⟨q0, _, hq0⟩
    by_cases hm0 : (q0.key == r.key && q0.revision == r.revision) = true
    · rw [if_pos hm0] at hq0
      exact hq0.symm
    · rw [if_neg hm0] at hq0
      rw [← hq0] at hqm
      exact absurd hqm hm0
  · rw [if_neg hc] at hq
    rcases List.mem_append.mp hq with hq | hq
    · exfalso
      apply hc
      rw [containsPK, List.any_eq_true]
      exact ⟨q, hq, hqm⟩
    · exact List.mem_singleton.mp hq

theorem rowsAt_upsert_other (t : Table) (r r2 : Row)
    (h2 : ¬ (r2.key = r.key ∧ r2.revision = r.revision))
    (hprev : ∀ q ∈ t, (q.key == r.key && q.revision == r.revision) = true → q = r) :
    ∀ q ∈ upsert t r2, (q.key == r.key && q.revision == r.revision) = true → q = r := by
  intro q hq hqm
  rw [upsert] at hq
  by_cases hc : containsPK t r2.key r2.revision
  · rw [if_pos hc] at hq
    rcases List.mem_map.mp hq with ⟨q0, hq0mem, hq0⟩
    by_cases hm0 : (q0.key == r2.key && q0.revision == r2.revision) = true
    · rw [if_pos hm0] at hq0
      rw [← hq0] at hqm
      exfalso
      apply h2
      exact ⟨beq_iff_eq.mp ((Bool.and_eq_true _ _).mp hqm).1,
             beq_iff_eq.mp ((Bool.and_eq_true _ _).mp hqm).2⟩
    · rw [if_neg hm0] at hq0
      rw [← hq0] at hqm ⊢
      exact hprev q0 hq0mem hqm
  · rw [if_neg hc] at hq
    rcases List.mem_append.mp hq with hq | hq
    · exact hprev q hq hqm
    · exfalso
      rw [List.mem_singleton.mp hq] at hqm
      apply h2
      exact ⟨beq_iff_eq.mp ((Bool.and_eq_true _ _).mp hqm).1,
             beq_iff_eq.mp ((Bool.and_eq_true _ _).mp hqm).2⟩

theorem upsert_eq_self (t : Table) (r : Row)
    (hc : containsPK t r.key r.revision = true)
    (hall : ∀ q ∈ t, (q.key == r.key && q.revision == r.revision) = true → q = r) :
    upsert t r = t := by
  rw [upsert, if_pos hc]
  have : ∀ q ∈ t,
      (if q.key == r.key && q.revision == r.revision then r else q) = q := by
    intro q hq
    by_cases hm : (q.key == r.key && q.revision == r.revision) = true
    · rw [if_pos hm]
      exact (hall q hq hm).symm
    · rw [if_neg hm]
  rw [List.map_congr_left this]
  simp

theorem stable_foldl_upsert (rs : List Row) :
    ∀ s : Table,
      (∀ r ∈ rs, containsPK s r.key r.revision = true
        ∧ ∀ q ∈ s, (q.key == r.key && q.revision == r.revision) = true → q = r) →
      rs.foldl upsert s = s := by
  induction rs with
  | nil => intro s _; rfl
  | cons r rs ih =>
    intro s h
    have hr := h r (List.mem_cons_self r rs)
    rw [List.foldl_cons, upsert_eq_self s r hr.1 hr.2]
    exact ih s fun r' hr' => h r' (List.mem_cons_of_mem _ hr')

theorem fold_preserves_rowsAt (rs : List Row) :
    ∀ (s : Table) (r : Row), Row.pk r ∉ rs.map Row.pk →
      containsPK s r.key r.revision = true →
      (∀ q ∈ s, (q.key == r.key && q.revision == r.revision) = true → q = r) →
      containsPK (rs.foldl upsert s) r.key r.revision = true
        ∧ ∀ q ∈ rs.foldl upsert s,
            (q.key == r.key && q.revision == r.revision) = true → q = r := by
  induction rs with
  | nil => intro s r _ hc hall; exact ⟨hc, hall⟩
  | cons r2 rs ih =>
    intro s r hpk hc hall
    have hne : Row.pk r ≠ Row.pk r2 := by
      intro habs
      apply hpk
      rw [List.map_cons, habs]
      exact List.mem_cons_self _ _
    have hpk' : Row.pk r ∉ rs.map Row.pk := by
      intro habs
      exact hpk (by rw [List.map_cons]; exact List.mem_cons_of_mem _ habs)
    have h2 : ¬ (r2.key = r.key ∧ r2.revision = r.revision) := by
      intro ⟨hk, hr⟩
      exact hne (by rw [Row.pk, Row.pk, hk, hr])
    rw [List.foldl_cons]
    exact ih (upsert s r2) r hpk'
      (containsPK_upsert_mono s r2 r.key r.revision hc)
      (rowsAt_upsert_other s r r2 h2 hall)

theorem establish_rowsAt (rs : List Row) (hnd : (rs.map Row.pk).Nodup) :
    ∀ (t : Table), ∀ r ∈ rs,
      containsPK (rs.foldl upsert t) r.key r.revision = true
        ∧ ∀ q ∈ rs.foldl upsert t,
            (q.key == r.key && q.revision == r.revision) = true → q = r := by
  induction rs with
  | nil => intro t r hr; cases hr
  | cons x rs ih =>
    intro t r hr
    rw [List.map_cons, List.nodup_cons] at hnd
    rw [List.foldl_cons]
    rcases List.mem_cons.mp hr with rfl | hr
    · exact fold_preserves_rowsAt rs (upsert t r) r hnd.1
        (containsPK_upsert_self t r) (rowsAt_upsert_self t r)
    · exact ih hnd.2 (upsert t x) r hr

theorem pkList_nodup_upsert (t : Table) (r : Row)
    (h : (t.map Row.pk).Nodup) : ((upsert t r).map Row.pk).Nodup := by
  rw [upsert]
  by_cases hc : containsPK t r.key r.revision
  · rw [if_pos hc]
    have : ((t.map fun q =>
        if q.key == r.key && q.revision == r.revision then r else q).map Row.pk)
        = t.map Row.pk := by
      rw [List.map_map]
      apply List.map_congr_left
      intro q _
      show Row.pk (if q.key == r.key && q.revision == r.revision then r else q)
        = Row.pk q
      by_cases hm : (q.key == r.key && q.revision == r.revision) = true
      · rw [if_pos hm, Row.pk, Row.pk,
            beq_iff_eq.mp ((Bool.and_eq_true _ _).mp hm).1,
            beq_iff_eq.mp ((Bool.and_eq_true _ _).mp hm).2]
      · rw [if_neg hm]
    rw [this]
    exact h
  · rw [if_neg hc, List.map_append]
    rw [List.nodup_append]
    refine ⟨h, List.nodup_singleton _, ?_⟩
    intro p hp hp2
    rcases List.mem_singleton.mp hp2 with rfl
    have : containsPK t r.key r.revision = true :=
      (containsPK_iff_pk_mem t r.key r.revision).mpr hp
    exact hc this

theorem pkList_nodup_foldl (rs : List Row) :
    ∀ t : Table, (t.map Row.pk).Nodup → ((rs.foldl upsert t).map Row.pk).Nodup := by
  induction rs with
  | nil => intro t h; exact h
  | cons r rs ih =>
    intro t h
    rw [List.foldl_cons]
    exact ih (upsert t r) (pkList_nodup_upsert t r h)

/-- C8: with the records of one initial sync (one record per
`(key, revision)` pair, as a range read produces), running `BulkInsert`
a second time over the same records leaves the table exactly as the
first run left it, and the table's `(key, revision)` primary keys stay
duplicate-free. -/
theorem c8_bulk_insert_idempotent (t : Table) (recs : List KeyValueRecord)
    (hrecs : (recs.map fun r => (r.key, r.revision)).Nodup)
    (ht : (t.map Row.pk).Nodup) :
    bulkInsert (bulkInsert t recs) recs = bulkInsert t recs
    ∧ ((bulkInsert t recs).map Row.pk).Nodup := by
  have hnd : ((recs.map recordRow).map Row.pk).Nodup := by
    rw [List.map_map]
    exact hrecs
  constructor
  · rw [bulkInsert, bulkInsert]
    apply stable_foldl_upsert
    intro r hr
    exact establish_rowsAt (recs.map recordRow) hnd t r hr
  · rw [bulkInsert]
    exact pkList_nodup_foldl (recs.map recordRow) t ht

/-- C8 witness: two records synced twice into an empty table. -/
theorem c8_witness :
    bulkInsert (bulkInsert [] [⟨"a", "1", 7, 0, false⟩, ⟨"b", "2", 9, 0, false⟩])
        [⟨"a", "1", 7, 0, false⟩, ⟨"b", "2", 9, 0, false⟩]
      = bulkInsert [] [⟨"a", "1", 7, 0, false⟩, ⟨"b", "2", 9, 0, false⟩]
    ∧ ((bulkInsert [] [⟨"a", "1", 7, 0, false⟩, ⟨"b", "2", 9, 0, false⟩]).map
        Row.pk).Nodup :=
  c8_bulk_insert_idempotent [] [⟨"a", "1", 7, 0, false⟩, ⟨"b", "2", 9, 0, false⟩]
    (by decide) (by decide)
